import Mathlib

/-!
Verification model of the Beast HTTP/1 message-serialization and
stream-write engine (`include/beast/http/write.hpp`).

The repository ships only the interface header; the bodies referenced by
`#include <beast/http/impl/write.ipp>` (and `serializer.hpp`,
`detail/chunk_encode.hpp`) are not part of the source tree.  Every
operational definition below is therefore modelled from the spec:
the Serializer state machine (spec §3, §4.1), the Chunk Framer (§4.2),
the Write Driver (§4.3) and the asynchronous composed operation (§4.3,
§6), together with the behavioral statements of the header's own
documentation comments (bounded work per `write_some` call, `split`,
`end_of_stream` on close-delimited messages, handler invocation deferred
as if by `post`).

Bytes are natural numbers; buffers are lists of bytes; the blocking
transport is an oracle `net : Nat → Option Nat` giving, for each write
call, either a failure (`none`) or the maximal number of bytes that
call accepts.
-/

namespace BeastHttp

/-- Carriage-return / line-feed delimiter used by HTTP/1 framing. -/
def crlf : List Nat := [13, 10]

/-- Modelled from the spec (§3): the Framing Mode, derived once per
message, one of content-length, chunked, close-delimited. -/
inductive FramingMode
  | contentLength
  | chunked
  | closeDelimited
deriving DecidableEq, Repr

/-- Modelled from the spec (§6): the optional Chunk Decorator capability:
given chunk index and chunk data it returns extension text; for the final
chunk it returns the trailer field lines. -/
structure Decorator where
  ext : Nat → List Nat → List Nat
  trailer : List Nat

/-- The empty decorator: no chunk extensions, no trailers. -/
def noDecorator : Decorator := ⟨fun _ _ => [], []⟩

/-- Modelled from the spec (§3): a Message as seen by this engine: the
header already rendered to contiguous bytes by the Header Renderer
collaborator, the Framing Mode, and the chunk sequence yielded by the
Body-Chunk Source collaborator. -/
structure Message where
  headerBytes : List Nat
  mode : FramingMode
  chunks : List (List Nat)

/-- Lowercase hexadecimal digit for a value below 16. -/
def hexDigitNat (d : Nat) : Nat :=
  if d < 10 then 48 + d else 87 + d

/-- Little-endian base-16 digits, structurally recursive on a fuel
bound (the number itself suffices) so that evaluation is definitional. -/
def hexDigitsLE : Nat → Nat → List Nat
  | 0, _ => []
  | _ + 1, 0 => []
  | f + 1, n + 1 => ((n + 1) % 16) :: hexDigitsLE f ((n + 1) / 16)

/-- Modelled from the spec (§4.2): lowercase hexadecimal rendering of a
chunk size, no leading zeros other than the literal `0` case. -/
def hexBytes (n : Nat) : List Nat :=
  if n = 0 then [48] else ((hexDigitsLE n n).reverse).map hexDigitNat

/-- Modelled from the spec (§4.2): the Chunk Framer on one data chunk:
`{hex-length [extension] CRLF, data, CRLF}`. -/
def chunkFrame (ext : List Nat) (data : List Nat) : List Nat :=
  hexBytes data.length ++ ext ++ crlf ++ data ++ crlf

/-- Modelled from the spec (§4.2): the Chunk Framer's terminator:
`{"0" CRLF, trailer-field lines, CRLF}`. -/
def chunkTerminator (dec : Decorator) : List Nat :=
  [48] ++ crlf ++ dec.trailer ++ crlf

/-- Modelled from the spec (§3): the Serializer phase enumeration. -/
inductive Phase
  | notStarted
  | headerInProgress
  | headerDone
  | bodyInProgress
  | bodyDone
  | complete
  | failed
deriving DecidableEq, Repr

/-- Modelled from the spec (§3, §4.1): the Serializer.  It borrows the
message, holds the caller-set `split` flag, the current phase, the
pending fragment being drained (a consuming view: only the not yet
transmitted suffix is kept), the chunks not yet pulled from the
Body-Chunk Source, and the index of the next chunk for the decorator. -/
structure Serializer where
  msg : Message
  dec : Decorator
  split : Bool
  phase : Phase
  pending : List Nat
  rest : List (List Nat)
  idx : Nat

namespace Serializer

/-- Construct a serializer bound to one message.  A producer chunk of
zero length yielded before exhaustion is skipped (spec §8), so empty
chunks never reach fragment production. -/
def init (msg : Message) (split : Bool) (dec : Decorator) : Serializer :=
  ⟨msg, dec, split, .notStarted, [], msg.chunks.filter (fun c => !c.isEmpty), 0⟩

/-- `is_done()`: body production exhausted and any terminating chunk
emitted (spec §4.1). -/
def is_done (sr : Serializer) : Bool :=
  sr.phase = Phase.complete

/-- `is_header_done()`: the rendered header has been fully handed to the
driver (spec §4.1). -/
def is_header_done (sr : Serializer) : Bool :=
  match sr.phase with
  | .headerDone | .bodyInProgress | .bodyDone | .complete => true
  | _ => false

/-- `split(b)`: sets whether the pass stops at `HeaderDone` (spec §4.1). -/
def set_split (b : Bool) (sr : Serializer) : Serializer :=
  { sr with split := b }

/-- Phase successor used when the pending fragment has been fully
consumed (spec §4.1): for non-chunked framing an exhausted source means
the pass is complete; the chunked terminator (`bodyDone` in flight)
completes on full consumption. -/
def advance (sr : Serializer) : Phase :=
  match sr.phase with
  | .headerInProgress =>
      if sr.msg.mode ≠ FramingMode.chunked ∧ sr.rest = [] then .complete
      else .headerDone
  | .bodyInProgress =>
      if sr.msg.mode ≠ FramingMode.chunked ∧ sr.rest = [] then .complete
      else .bodyInProgress
  | .bodyDone => .complete
  | p => p

/-- `consume(n)`: advance the consuming view of the pending fragment by
`n` bytes; once the fragment is fully consumed, release it and advance
the phase (spec §4.1). -/
def consume (n : Nat) (sr : Serializer) : Serializer :=
  let p := sr.pending.drop n
  if p.isEmpty then { sr with pending := [], phase := sr.advance }
  else { sr with pending := p }

end Serializer

/-- Error kinds surfaced by the engine (spec §7): serializer misuse,
opaque transport failure, and the non-fault end-of-stream signal. -/
inductive Err
  | serializationError
  | transportError
  | endOfStream
deriving DecidableEq, Repr

namespace Serializer

/-- Modelled from the spec (§4.1): `next_fragment()`.  Fails with the
serialization-usage error after `is_done()` (or in the failed phase);
resumes a partially drained fragment; on first use renders the header,
fusing it with the first body chunk when not chunked and not split; in
chunked mode wraps each chunk with the Chunk Framer and finally emits
the terminator. -/
def next_fragment (sr : Serializer) : Except Err (Serializer × List Nat) :=
  if sr.phase = Phase.failed then .error .serializationError
  else if sr.is_done then .error .serializationError
  else if !sr.pending.isEmpty then .ok (sr, sr.pending)
  else
    match sr.phase with
    | .notStarted =>
        let h := sr.msg.headerBytes
        if sr.msg.mode = FramingMode.chunked ∨ sr.split then
          .ok ({ sr with phase := .headerInProgress, pending := h }, h)
        else
          match sr.rest with
          | [] => .ok ({ sr with phase := .headerInProgress, pending := h }, h)
          | c :: cs =>
              let f := h ++ c
              let sr1 := { sr with phase := Phase.headerInProgress, pending := f, rest := cs }
              .ok (sr1, f)
    | .headerDone | .bodyInProgress =>
        match sr.msg.mode with
        | .chunked =>
            match sr.rest with
            | [] =>
                let t := chunkTerminator sr.dec
                .ok ({ sr with phase := .bodyDone, pending := t }, t)
            | c :: cs =>
                let f := chunkFrame (sr.dec.ext sr.idx c) c
                let sr1 := { sr with phase := Phase.bodyInProgress, pending := f, rest := cs, idx := sr.idx + 1 }
                .ok (sr1, f)
        | _ =>
            match sr.rest with
            | [] => .error .serializationError
            | c :: cs =>
                let sr1 := { sr with phase := Phase.bodyInProgress, pending := c, rest := cs }
                .ok (sr1, c)
    | _ => .error .serializationError

end Serializer

/-- Result of one `write_some` call: the serializer afterwards, the
bytes handed to the transport, the number of transport write-primitive
invocations performed, and the error code. -/
structure WriteSomeResult where
  sr : Serializer
  wire : List Nat
  calls : Nat
  ec : Option Err

/-- Modelled from the spec (§4.3): `write_some` (error-code form).  If
`is_done()` it returns immediately with zero bytes and no error.
Otherwise it obtains a fragment (producing one if none pending), submits
it to the transport's single bounded write primitive exactly once, and
on success consumes the number of bytes reported written; a transport
failure leaves the serializer in the failed phase. -/
def write_some (cap : Option Nat) (sr : Serializer) : WriteSomeResult :=
  if sr.is_done then ⟨sr, [], 0, none⟩
  else
    match sr.next_fragment with
    | .error e => ⟨sr, [], 0, some e⟩
    | .ok (sr1, frag) =>
        match cap with
        | none => ⟨{ sr1 with phase := .failed }, [], 1, some .transportError⟩
        | some c =>
            let n := min c frag.length
            ⟨sr1.consume n, frag.take n, 1, none⟩

/-- Modelled from the spec (§4.3): the Write Driver loop shared by
`write_header` (stop = `is_header_done`) and `write`
(stop = `is_done`): repeatedly invoke `write_some` until the stop
condition holds or an error occurs.  `fuel` bounds the iteration count;
`k` indexes transport calls into the oracle. -/
def driveLoop (stop : Serializer → Bool) (net : Nat → Option Nat) :
    Nat → Nat → Serializer → Serializer × List Nat × Option Err
  | 0, _, sr => (sr, [], none)
  | fuel + 1, k, sr =>
      if stop sr then (sr, [], none)
      else
        let r := write_some (net k) sr
        match r.ec with
        | some e => (r.sr, r.wire, some e)
        | none =>
            let rec' := driveLoop stop net fuel (k + 1) r.sr
            (rec'.1, r.wire ++ rec'.2.1, rec'.2.2)

/-- Modelled from the spec (§4.3): `write_header` (error-code form):
sets `split(true)` and loops `write_some` until `is_header_done()`. -/
def write_header_ec (net : Nat → Option Nat) (fuel : Nat)
    (sr : Serializer) : Serializer × List Nat × Option Err :=
  driveLoop Serializer.is_header_done net fuel 0 (sr.set_split true)

/-- Modelled from the spec (§4.3): serializer-form `write` (error-code
form): loops `write_some` until `is_done()`. -/
def write_ec (net : Nat → Option Nat) (fuel : Nat)
    (sr : Serializer) : Serializer × List Nat × Option Err :=
  driveLoop Serializer.is_done net fuel 0 sr

/-- Modelled from the spec (§4.3): message-form `write` (error-code
form): constructs a private serializer with the empty chunk decorator,
delegates to the serializer form, and on success reports the
`end_of_stream` condition exactly when the framing mode is
close-delimited. -/
def write_msg_ec (net : Nat → Option Nat) (fuel : Nat)
    (msg : Message) : List Nat × Option Err :=
  let r := write_ec net fuel (Serializer.init msg false noDecorator)
  match r.2.2 with
  | some e => (r.2.1, some e)
  | none =>
      (r.2.1,
        if msg.mode = FramingMode.closeDelimited then some Err.endOfStream
        else none)

/-! ### Wire-remainder invariant for the Write Driver -/

/-- Chunked body wire still to be produced when the chunks of `rest`
(decorated starting at index `i`) and the terminator remain. -/
def framesFrom (dec : Decorator) : Nat → List (List Nat) → List Nat
  | _, [] => chunkTerminator dec
  | i, c :: cs => chunkFrame (dec.ext i c) c ++ framesFrom dec (i + 1) cs

/-- Body wire bytes for the remaining source chunks, by framing mode. -/
def bodyWire (dec : Decorator) (mode : FramingMode) (i : Nat)
    (rest : List (List Nat)) : List Nat :=
  match mode with
  | .chunked => framesFrom dec i rest
  | _ => rest.flatten

/-- All wire bytes a serializer state has yet to hand to the driver. -/
def wireRem (sr : Serializer) : List Nat :=
  match sr.phase with
  | .notStarted => sr.msg.headerBytes ++ bodyWire sr.dec sr.msg.mode sr.idx sr.rest
  | .headerInProgress => sr.pending ++ bodyWire sr.dec sr.msg.mode sr.idx sr.rest
  | .headerDone => bodyWire sr.dec sr.msg.mode sr.idx sr.rest
  | .bodyInProgress => sr.pending ++ bodyWire sr.dec sr.msg.mode sr.idx sr.rest
  | .bodyDone => sr.pending
  | .complete => []
  | .failed => []

/-- Termination measure for the driver loops: remaining wire bytes plus
one for the pending header-production step. -/
def meas (sr : Serializer) : Nat :=
  (wireRem sr).length + (if sr.phase = Phase.notStarted then 1 else 0)

/-- States reachable between `write_some` calls. -/
def WF (sr : Serializer) : Prop :=
  (∀ c ∈ sr.rest, c ≠ []) ∧
  (match sr.phase with
   | .notStarted => sr.pending = []
   | .headerInProgress => sr.pending ≠ []
   | .headerDone =>
       sr.pending = [] ∧ (sr.msg.mode ≠ FramingMode.chunked → sr.rest ≠ [])
   | .bodyInProgress =>
       sr.msg.mode ≠ FramingMode.chunked → (sr.pending ≠ [] ∨ sr.rest ≠ [])
   | .bodyDone =>
       sr.msg.mode = FramingMode.chunked ∧ sr.pending ≠ [] ∧ sr.rest = []
   | .complete => True
   | .failed => True)

/-- States handed back by `next_fragment` inside one `write_some` call,
just before the transport write and `consume`. -/
def WFmid (sr : Serializer) : Prop :=
  (∀ c ∈ sr.rest, c ≠ []) ∧
  (match sr.phase with
   | .headerInProgress => True
   | .bodyInProgress => True
   | .bodyDone =>
       sr.msg.mode = FramingMode.chunked ∧ sr.rest = []
   | _ => False)

theorem hexDigitsLE_eq_digits :
    ∀ f n, n ≤ f → hexDigitsLE f n = Nat.digits 16 n := by
  intro f
  induction f with
  | zero =>
    intro n hn
    have : n = 0 := Nat.le_zero.mp hn
    subst this
    simp [hexDigitsLE]
  | succ f ih =>
    intro n hn
    match n with
    | 0 => simp [hexDigitsLE]
    | m + 1 =>
      rw [hexDigitsLE,
        Nat.digits_def' (by norm_num : (1:Nat) < 16) (Nat.succ_pos m)]
      congr 1
      apply ih
      have : (m + 1) / 16 < m + 1 :=
        Nat.div_lt_self (Nat.succ_pos m) (by norm_num)
      omega

theorem hexBytes_ne_nil (n : Nat) : hexBytes n ≠ [] := by
  unfold hexBytes
  split
  · simp
  · next h =>
    rw [hexDigitsLE_eq_digits n n (le_refl n)]
    simp only [ne_eq, List.map_eq_nil_iff, List.reverse_eq_nil_iff]
    exact Nat.digits_ne_nil_iff_ne_zero.mpr h

theorem chunkFrame_ne_nil (e d : List Nat) : chunkFrame e d ≠ [] := by
  unfold chunkFrame
  intro h
  rw [List.append_assoc, List.append_assoc, List.append_assoc,
    List.append_eq_nil] at h
  exact hexBytes_ne_nil _ h.1

theorem chunkTerminator_ne_nil (dec : Decorator) : chunkTerminator dec ≠ [] := by
  simp [chunkTerminator]

theorem framesFrom_ne_nil (dec : Decorator) (i : Nat)
    (cs : List (List Nat)) : framesFrom dec i cs ≠ [] := by
  cases cs with
  | nil => exact chunkTerminator_ne_nil dec
  | cons c cs =>
    simp only [framesFrom, ne_eq, List.append_eq_nil, not_and]
    intro h
    exact absurd h (chunkFrame_ne_nil _ _)

theorem flatten_ne_nil (c : List Nat) (cs : List (List Nat))
    (hc : c ≠ []) : (c :: cs).flatten ≠ [] := by
  simp only [List.flatten_cons, ne_eq, List.append_eq_nil, not_and]
  intro h
  exact absurd h hc

theorem flatten_filter_nonempty (l : List (List Nat)) :
    (l.filter (fun c => !c.isEmpty)).flatten = l.flatten := by
  induction l with
  | nil => rfl
  | cons c cs ih =>
    by_cases h : c.isEmpty
    · have hc : c = [] := List.isEmpty_iff.mp h
      simp [List.filter_cons, h, ih, hc]
    · simp [List.filter_cons, h, ih]

theorem WF_init (msg : Message) (b : Bool) (dec : Decorator) :
    WF (Serializer.init msg b dec) := by
  constructor
  · intro c hc
    have := (List.mem_filter.mp hc).2
    simpa [List.isEmpty_iff] using this
  · simp [Serializer.init]

theorem consume_drain (sr1 : Serializer) (n : Nat) (hmid : WFmid sr1)
    (hn : n ≤ sr1.pending.length) :
    WF (sr1.consume n) ∧ (sr1.consume n).phase ≠ Phase.failed ∧
      (sr1.consume n).phase ≠ Phase.notStarted ∧
      sr1.pending.take n ++ wireRem (sr1.consume n) = wireRem sr1 ∧
      (wireRem (sr1.consume n)).length + n = (wireRem sr1).length := by
  obtain ⟨msg, dec, sp, ph, pending, rest, idx⟩ := sr1
  obtain ⟨hrest, hph⟩ := hmid
  have hrest' : ∀ c ∈ rest, c ≠ [] := fun c hc => hrest c hc
  simp only at hph hn
  cases hp : (pending.drop n).isEmpty with
  | true =>
    have hplen : pending.length ≤ n := List.drop_eq_nil_iff.mp (by simpa using hp)
    have hnlen : n = pending.length := le_antisymm hn hplen
    have htake : pending.take n = pending := by
      rw [hnlen]; exact List.take_length pending
    have hcons : Serializer.consume n ⟨msg, dec, sp, ph, pending, rest, idx⟩ =
        ⟨msg, dec, sp,
          Serializer.advance ⟨msg, dec, sp, ph, pending, rest, idx⟩,
          [], rest, idx⟩ := by
      simp [Serializer.consume, hp]
    rw [hcons]
    cases ph with
    | headerInProgress =>
      by_cases hcond : msg.mode ≠ FramingMode.chunked ∧ rest = []
      · obtain ⟨hmode, hrnil⟩ := hcond
        subst hrnil
        have hbw : bodyWire dec msg.mode idx [] = [] := by
          cases hmode' : msg.mode with
          | chunked => exact absurd hmode' hmode
          | contentLength => simp [bodyWire]
          | closeDelimited => simp [bodyWire]
        have hadv : Serializer.advance ⟨msg, dec, sp, .headerInProgress,
            pending, [], idx⟩ = Phase.complete := by
          simp [Serializer.advance, hmode]
        rw [hadv]
        refine ⟨⟨hrest', trivial⟩, by simp, by simp, ?_, ?_⟩
        · simp [wireRem, htake, hbw]
        · simp [wireRem, hbw, hnlen]
      · have hadv : Serializer.advance ⟨msg, dec, sp, .headerInProgress,
            pending, rest, idx⟩ = Phase.headerDone := by
          simp [Serializer.advance, hcond]
        rw [hadv]
        rw [Decidable.not_and_iff_or_not] at hcond
        simp only [not_not] at hcond
        refine ⟨⟨hrest', rfl, ?_⟩, by simp, by simp, ?_, ?_⟩
        · intro hm
          rcases hcond with h | h
          · exact absurd h (by simpa using hm)
          · exact h
        · simp [wireRem, htake]
        · simp only [wireRem, List.length_append, List.length_nil, hnlen]
          omega
    | bodyInProgress =>
      by_cases hcond : msg.mode ≠ FramingMode.chunked ∧ rest = []
      · obtain ⟨hmode, hrnil⟩ := hcond
        subst hrnil
        have hbw : bodyWire dec msg.mode idx [] = [] := by
          cases hmode' : msg.mode with
          | chunked => exact absurd hmode' hmode
          | contentLength => simp [bodyWire]
          | closeDelimited => simp [bodyWire]
        have hadv : Serializer.advance ⟨msg, dec, sp, .bodyInProgress,
            pending, [], idx⟩ = Phase.complete := by
          simp [Serializer.advance, hmode]
        rw [hadv]
        refine ⟨⟨hrest', trivial⟩, by simp, by simp, ?_, ?_⟩
        · simp [wireRem, htake, hbw]
        · simp [wireRem, hbw, hnlen]
      · have hadv : Serializer.advance ⟨msg, dec, sp, .bodyInProgress,
            pending, rest, idx⟩ = Phase.bodyInProgress := by
          simp [Serializer.advance, hcond]
        rw [hadv]
        rw [Decidable.not_and_iff_or_not] at hcond
        simp only [not_not] at hcond
        refine ⟨⟨hrest', ?_⟩, by simp, by simp, ?_, ?_⟩
        · intro hm
          rcases hcond with h | h
          · exact absurd h (by simpa using hm)
          · exact Or.inr h
        · simp [wireRem, htake]
        · simp only [wireRem, List.length_append, List.length_nil, hnlen]
          omega
    | bodyDone =>
      obtain ⟨hmode, hrnil⟩ := hph
      have hadv : Serializer.advance ⟨msg, dec, sp, .bodyDone,
          pending, rest, idx⟩ = Phase.complete := by
        simp [Serializer.advance]
      rw [hadv]
      refine ⟨⟨hrest', trivial⟩, by simp, by simp, ?_, ?_⟩
      · simp [wireRem, htake]
      · simp [wireRem, hnlen]
    | notStarted => exact absurd hph (by simp)
    | headerDone => exact absurd hph (by simp)
    | complete => exact absurd hph (by simp)
    | failed => exact absurd hph (by simp)
  | false =>
    have hpne : pending.drop n ≠ [] := by
      intro h
      rw [h] at hp
      simp at hp
    have hlen : (pending.drop n).length = pending.length - n :=
      List.length_drop n pending
    have htd : pending.take n ++ pending.drop n = pending :=
      List.take_append_drop n pending
    have hcons : Serializer.consume n ⟨msg, dec, sp, ph, pending, rest, idx⟩ =
        ⟨msg, dec, sp, ph, pending.drop n, rest, idx⟩ := by
      simp [Serializer.consume, hp]
    rw [hcons]
    cases ph with
    | headerInProgress =>
      refine ⟨⟨hrest', hpne⟩, by simp, by simp, ?_, ?_⟩
      · simp only [wireRem, ← List.append_assoc, htd]
      · simp only [wireRem, List.length_append, hlen]
        omega
    | bodyInProgress =>
      refine ⟨⟨hrest', fun _ => Or.inl hpne⟩, by simp, by simp, ?_, ?_⟩
      · simp only [wireRem, ← List.append_assoc, htd]
      · simp only [wireRem, List.length_append, hlen]
        omega
    | bodyDone =>
      obtain ⟨hmode, hrnil⟩ := hph
      refine ⟨⟨hrest', hmode, hpne, hrnil⟩, by simp, by simp, ?_, ?_⟩
      · simp only [wireRem, htd]
      · simp only [wireRem, hlen]
        omega
    | notStarted => exact absurd hph (by simp)
    | headerDone => exact absurd hph (by simp)
    | complete => exact absurd hph (by simp)
    | failed => exact absurd hph (by simp)

theorem next_fragment_produce (sr : Serializer) (hWF : WF sr)
    (hnd : sr.is_done = false) (hnf : sr.phase ≠ Phase.failed) :
    ∃ sr1, sr.next_fragment = .ok (sr1, sr1.pending) ∧ WFmid sr1 ∧
      wireRem sr1 = wireRem sr ∧
      (sr1.pending = [] → sr.phase = Phase.notStarted) := by
  obtain ⟨msg, dec, sp, ph, pending, rest, idx⟩ := sr
  obtain ⟨hrest, hph⟩ := hWF
  have hrest' : ∀ c ∈ rest, c ≠ [] := fun c hc => hrest c hc
  simp only at hph
  simp only [Serializer.is_done] at hnd
  simp only at hnf
  cases hpe : pending.isEmpty with
  | false =>
    have hpne : pending ≠ [] := by
      intro h; rw [h] at hpe; simp at hpe
    refine ⟨⟨msg, dec, sp, ph, pending, rest, idx⟩, ?_, ?_, rfl,
      fun h => absurd h hpne⟩
    · simp [Serializer.next_fragment, Serializer.is_done, hnf, hnd, hpe]
    · cases ph with
      | notStarted => exact absurd hph hpne
      | headerInProgress => exact ⟨hrest', trivial⟩
      | headerDone => exact absurd hph.1 hpne
      | bodyInProgress => exact ⟨hrest', trivial⟩
      | bodyDone => exact ⟨hrest', hph.1, hph.2.2⟩
      | complete => simp at hnd
      | failed => exact absurd rfl hnf
  | true =>
    have hpnil : pending = [] := List.isEmpty_iff.mp hpe
    subst hpnil
    cases ph with
    | notStarted =>
      by_cases hcs : msg.mode = FramingMode.chunked ∨ sp = true
      · refine ⟨⟨msg, dec, sp, .headerInProgress, msg.headerBytes, rest, idx⟩,
          ?_, ⟨hrest', trivial⟩, rfl, fun _ => rfl⟩
        simp [Serializer.next_fragment, Serializer.is_done, hcs]
      · cases hrc : rest with
        | nil =>
          refine ⟨⟨msg, dec, sp, .headerInProgress, msg.headerBytes, [], idx⟩,
            ?_, ⟨by simp, trivial⟩, rfl, fun _ => rfl⟩
          simp [Serializer.next_fragment, Serializer.is_done, hcs, hrc]
        | cons c cs =>
          have hmode : msg.mode ≠ FramingMode.chunked := fun h => hcs (Or.inl h)
          refine ⟨⟨msg, dec, sp, .headerInProgress,
            msg.headerBytes ++ c, cs, idx⟩, ?_, ?_, ?_, fun _ => rfl⟩
          · simp [Serializer.next_fragment, Serializer.is_done, hcs, hrc]
          · exact ⟨fun x hx => hrest' x (hrc ▸ List.mem_cons_of_mem c hx),
              trivial⟩
          · cases hmode' : msg.mode with
            | chunked => exact absurd hmode' hmode
            | contentLength => simp [wireRem, bodyWire, hrc]
            | closeDelimited => simp [wireRem, bodyWire, hrc]
    | headerDone =>
      obtain ⟨-, hph2⟩ := hph
      cases hmode : msg.mode with
      | chunked =>
        cases hrc : rest with
        | nil =>
          refine ⟨⟨msg, dec, sp, .bodyDone, chunkTerminator dec, [], idx⟩,
            ?_, ⟨by simp, hmode, rfl⟩, ?_,
            fun h => absurd h (chunkTerminator_ne_nil dec)⟩
          · simp [Serializer.next_fragment, Serializer.is_done, hmode, hrc]
          · simp [wireRem, bodyWire, hmode, hrc, framesFrom]
        | cons c cs =>
          refine ⟨⟨msg, dec, sp, .bodyInProgress,
            chunkFrame (dec.ext idx c) c, cs, idx + 1⟩, ?_, ?_, ?_,
            fun h => absurd h (chunkFrame_ne_nil _ _)⟩
          · simp [Serializer.next_fragment, Serializer.is_done, hmode, hrc]
          · exact ⟨fun x hx => hrest' x (hrc ▸ List.mem_cons_of_mem c hx),
              trivial⟩
          · simp [wireRem, bodyWire, hmode, hrc, framesFrom]
      | contentLength =>
        have hrne : rest ≠ [] := hph2 (by simp [hmode])
        cases hrc : rest with
        | nil => exact absurd hrc hrne
        | cons c cs =>
          refine ⟨⟨msg, dec, sp, .bodyInProgress, c, cs, idx⟩, ?_, ?_, ?_,
            fun h => absurd h (hrest' c (hrc ▸ List.mem_cons_self c cs))⟩
          · simp [Serializer.next_fragment, Serializer.is_done, hmode, hrc]
          · exact ⟨fun x hx => hrest' x (hrc ▸ List.mem_cons_of_mem c hx),
              trivial⟩
          · simp [wireRem, bodyWire, hmode, hrc]
      | closeDelimited =>
        have hrne : rest ≠ [] := hph2 (by simp [hmode])
        cases hrc : rest with
        | nil => exact absurd hrc hrne
        | cons c cs =>
          refine ⟨⟨msg, dec, sp, .bodyInProgress, c, cs, idx⟩, ?_, ?_, ?_,
            fun h => absurd h (hrest' c (hrc ▸ List.mem_cons_self c cs))⟩
          · simp [Serializer.next_fragment, Serializer.is_done, hmode, hrc]
          · exact ⟨fun x hx => hrest' x (hrc ▸ List.mem_cons_of_mem c hx),
              trivial⟩
          · simp [wireRem, bodyWire, hmode, hrc]
    | bodyInProgress =>
      cases hmode : msg.mode with
      | chunked =>
        cases hrc : rest with
        | nil =>
          refine ⟨⟨msg, dec, sp, .bodyDone, chunkTerminator dec, [], idx⟩,
            ?_, ⟨by simp, hmode, rfl⟩, ?_,
            fun h => absurd h (chunkTerminator_ne_nil dec)⟩
          · simp [Serializer.next_fragment, Serializer.is_done, hmode, hrc]
          · simp [wireRem, bodyWire, hmode, hrc, framesFrom]
        | cons c cs =>
          refine ⟨⟨msg, dec, sp, .bodyInProgress,
            chunkFrame (dec.ext idx c) c, cs, idx + 1⟩, ?_, ?_, ?_,
            fun h => absurd h (chunkFrame_ne_nil _ _)⟩
          · simp [Serializer.next_fragment, Serializer.is_done, hmode, hrc]
          · exact ⟨fun x hx => hrest' x (hrc ▸ List.mem_cons_of_mem c hx),
              trivial⟩
          · simp [wireRem, bodyWire, hmode, hrc, framesFrom]
      | contentLength =>
        have hrne : rest ≠ [] := by
          rcases hph (by simp [hmode]) with h | h
          · exact absurd rfl h
          · exact h
        cases hrc : rest with
        | nil => exact absurd hrc hrne
        | cons c cs =>
          refine ⟨⟨msg, dec, sp, .bodyInProgress, c, cs, idx⟩, ?_, ?_, ?_,
            fun h => absurd h (hrest' c (hrc ▸ List.mem_cons_self c cs))⟩
          · simp [Serializer.next_fragment, Serializer.is_done, hmode, hrc]
          · exact ⟨fun x hx => hrest' x (hrc ▸ List.mem_cons_of_mem c hx),
              trivial⟩
          · simp [wireRem, bodyWire, hmode, hrc]
      | closeDelimited =>
        have hrne : rest ≠ [] := by
          rcases hph (by simp [hmode]) with h | h
          · exact absurd rfl h
          · exact h
        cases hrc : rest with
        | nil => exact absurd hrc hrne
        | cons c cs =>
          refine ⟨⟨msg, dec, sp, .bodyInProgress, c, cs, idx⟩, ?_, ?_, ?_,
            fun h => absurd h (hrest' c (hrc ▸ List.mem_cons_self c cs))⟩
          · simp [Serializer.next_fragment, Serializer.is_done, hmode, hrc]
          · exact ⟨fun x hx => hrest' x (hrc ▸ List.mem_cons_of_mem c hx),
              trivial⟩
          · simp [wireRem, bodyWire, hmode, hrc]
    | headerInProgress => exact absurd rfl hph
    | bodyDone => exact absurd rfl hph.2.1
    | complete => simp at hnd
    | failed => exact absurd rfl hnf

theorem write_some_step (sr : Serializer) (c : Nat) (hWF : WF sr)
    (hnd : sr.is_done = false) (hnf : sr.phase ≠ Phase.failed) (hc : 1 ≤ c) :
    (write_some (some c) sr).ec = none ∧
      (write_some (some c) sr).calls = 1 ∧
      WF (write_some (some c) sr).sr ∧
      (write_some (some c) sr).sr.phase ≠ Phase.failed ∧
      (write_some (some c) sr).wire ++ wireRem (write_some (some c) sr).sr =
        wireRem sr ∧
      meas (write_some (some c) sr).sr < meas sr := by
  obtain ⟨sr1, hok, hmid, hwr, hemp⟩ := next_fragment_produce sr hWF hnd hnf
  have hws : write_some (some c) sr =
      ⟨sr1.consume (min c sr1.pending.length),
        sr1.pending.take (min c sr1.pending.length), 1, none⟩ := by
    simp [write_some, hnd, hok]
  obtain ⟨hWF', hnf', hns', happ, hlen⟩ :=
    consume_drain sr1 (min c sr1.pending.length) hmid (Nat.min_le_right _ _)
  rw [hws]
  refine ⟨rfl, rfl, hWF', hnf', ?_, ?_⟩
  · simpa [hwr] using happ
  · rw [hwr] at hlen
    simp only [meas, if_neg hns']
    by_cases hp : sr1.pending = []
    · have hst : sr.phase = Phase.notStarted := hemp hp
      rw [if_pos hst]
      have hz : min c sr1.pending.length = 0 := by simp [hp]
      omega
    · have hmin : 1 ≤ min c sr1.pending.length :=
        le_min hc (List.length_pos.mpr hp)
      have : (if sr.phase = Phase.notStarted then 1 else 0) + 0 ≤
          (if sr.phase = Phase.notStarted then 1 else 0) := by omega
      split <;> omega

theorem meas_zero (sr : Serializer) (hWF : WF sr)
    (hnf : sr.phase ≠ Phase.failed) (hm : meas sr = 0) :
    sr.phase = Phase.complete := by
  obtain ⟨msg, dec, sp, ph, pending, rest, idx⟩ := sr
  obtain ⟨hrest, hph⟩ := hWF
  have hrest' : ∀ x ∈ rest, x ≠ [] := fun x hx => hrest x hx
  simp only at hph hnf
  cases ph with
  | complete => rfl
  | failed => exact absurd rfl hnf
  | notStarted => simp [meas, wireRem] at hm
  | headerInProgress =>
    exfalso
    simp only [meas, wireRem, List.length_append] at hm
    have := List.length_pos.mpr hph
    omega
  | headerDone =>
    exfalso
    simp only [meas, wireRem] at hm
    cases hmode : msg.mode with
    | chunked =>
      rw [hmode] at hm
      simp only [bodyWire] at hm
      have := List.length_pos.mpr (framesFrom_ne_nil dec idx rest)
      omega
    | contentLength =>
      have hrne : rest ≠ [] := hph.2 (by simp [hmode])
      cases hrc : rest with
      | nil => exact hrne hrc
      | cons x xs =>
        rw [hmode, hrc] at hm
        simp only [bodyWire] at hm
        have := List.length_pos.mpr
          (flatten_ne_nil x xs (hrest' x (hrc ▸ List.mem_cons_self x xs)))
        omega
    | closeDelimited =>
      have hrne : rest ≠ [] := hph.2 (by simp [hmode])
      cases hrc : rest with
      | nil => exact hrne hrc
      | cons x xs =>
        rw [hmode, hrc] at hm
        simp only [bodyWire] at hm
        have := List.length_pos.mpr
          (flatten_ne_nil x xs (hrest' x (hrc ▸ List.mem_cons_self x xs)))
        omega
  | bodyInProgress =>
    exfalso
    simp only [meas, wireRem, List.length_append] at hm
    cases hmode : msg.mode with
    | chunked =>
      rw [hmode] at hm
      simp only [bodyWire] at hm
      have := List.length_pos.mpr (framesFrom_ne_nil dec idx rest)
      omega
    | contentLength =>
      rcases hph (by simp [hmode]) with h | h
      · have := List.length_pos.mpr h
        omega
      · cases hrc : rest with
        | nil => exact h hrc
        | cons x xs =>
          rw [hmode, hrc] at hm
          simp only [bodyWire] at hm
          have := List.length_pos.mpr
            (flatten_ne_nil x xs (hrest' x (hrc ▸ List.mem_cons_self x xs)))
          omega
    | closeDelimited =>
      rcases hph (by simp [hmode]) with h | h
      · have := List.length_pos.mpr h
        omega
      · cases hrc : rest with
        | nil => exact h hrc
        | cons x xs =>
          rw [hmode, hrc] at hm
          simp only [bodyWire] at hm
          have := List.length_pos.mpr
            (flatten_ne_nil x xs (hrest' x (hrc ▸ List.mem_cons_self x xs)))
          omega
  | bodyDone =>
    exfalso
    simp only [meas, wireRem] at hm
    have := List.length_pos.mpr hph.2.1
    omega

/-- The Write Driver loop (spec §4.3): with a transport that accepts at
least one byte per call and never fails, and enough fuel, the loop stops
with no error at a state satisfying `stop`, and the bytes it hands to the
transport are exactly the serializer's remaining wire bytes up to that
state. -/
theorem driveLoop_spec (stop : Serializer → Bool) (net : Nat → Option Nat)
    (hstop : ∀ s : Serializer, s.phase = Phase.complete → stop s = true)
    (hnet : ∀ j, ∃ c, net j = some c ∧ 1 ≤ c) :
    ∀ fuel k sr, WF sr → sr.phase ≠ Phase.failed → meas sr ≤ fuel →
      (driveLoop stop net fuel k sr).2.2 = none ∧
      stop (driveLoop stop net fuel k sr).1 = true ∧
      WF (driveLoop stop net fuel k sr).1 ∧
      (driveLoop stop net fuel k sr).1.phase ≠ Phase.failed ∧
      (driveLoop stop net fuel k sr).2.1 ++
          wireRem (driveLoop stop net fuel k sr).1 = wireRem sr := by
  intro fuel
  induction fuel with
  | zero =>
    intro k sr hWF hnf hm
    have hc := meas_zero sr hWF hnf (Nat.le_zero.mp hm)
    exact ⟨rfl, hstop sr hc, hWF, hnf, by simp [driveLoop]⟩
  | succ f ih =>
    intro k sr hWF hnf hm
    by_cases hs : stop sr = true
    · have hdl : driveLoop stop net (f + 1) k sr = (sr, [], none) := by
        simp [driveLoop, hs]
      rw [hdl]
      exact ⟨rfl, hs, hWF, hnf, by simp⟩
    · have hsf : stop sr = false := by
        cases h : stop sr
        · rfl
        · exact absurd h hs
      have hnd : sr.is_done = false := by
        simp only [Serializer.is_done, decide_eq_false_iff_not]
        intro hc
        exact hs (hstop sr hc)
      obtain ⟨c, hcnet, hc1⟩ := hnet k
      obtain ⟨hec, hcalls, hWF2, hnf2, happ, hlt⟩ :=
        write_some_step sr c hWF hnd hnf hc1
      have hdl : driveLoop stop net (f + 1) k sr =
          ((driveLoop stop net f (k + 1) (write_some (some c) sr).sr).1,
            (write_some (some c) sr).wire ++
              (driveLoop stop net f (k + 1) (write_some (some c) sr).sr).2.1,
            (driveLoop stop net f (k + 1) (write_some (some c) sr).sr).2.2) := by
        simp only [driveLoop, hsf, Bool.false_eq_true, if_false, hcnet]
        rw [hec]
      obtain ⟨ih1, ih2, ih3, ih4, ih5⟩ :=
        ih (k + 1) (write_some (some c) sr).sr hWF2 hnf2 (by omega)
      rw [hdl]
      refine ⟨ih1, ih2, ih3, ih4, ?_⟩
      rw [List.append_assoc, ih5, happ]

theorem wireRem_done (sr : Serializer) (h : sr.phase = Phase.complete) :
    wireRem sr = [] := by
  obtain ⟨msg, dec, sp, ph, pending, rest, idx⟩ := sr
  simp only at h
  subst h
  rfl

theorem is_done_iff (sr : Serializer) :
    sr.is_done = true ↔ sr.phase = Phase.complete := by
  simp [Serializer.is_done]

theorem is_header_done_ne_notStarted (sr : Serializer)
    (h : sr.is_header_done = true) : sr.phase ≠ Phase.notStarted := by
  intro hp
  rw [Serializer.is_header_done, hp] at h
  simp at h

theorem init_phase (msg : Message) (b : Bool) (dec : Decorator) :
    (Serializer.init msg b dec).phase = Phase.notStarted := rfl

theorem is_done_stop (s : Serializer) (h : s.phase = Phase.complete) :
    s.is_done = true := by
  simp [Serializer.is_done, h]

theorem is_header_done_stop (s : Serializer) (h : s.phase = Phase.complete) :
    s.is_header_done = true := by
  rw [Serializer.is_header_done, h]

/-- C1 (general form): with content-length framing, a never-failing
transport accepting at least one byte per call, and enough fuel, the
`write_some` loop of serializer-form `write` reaches `is_done` with no
error, and the concatenation of all bytes handed to the transport is
exactly the rendered header followed by the body bytes. -/
theorem contentLength_write_transcript (msg : Message) (dec : Decorator)
    (net : Nat → Option Nat) (fuel : Nat)
    (hm : msg.mode = FramingMode.contentLength)
    (hnet : ∀ j, ∃ c, net j = some c ∧ 1 ≤ c)
    (hfuel : meas (Serializer.init msg false dec) ≤ fuel) :
    (write_ec net fuel (Serializer.init msg false dec)).1.is_done = true ∧
      (write_ec net fuel (Serializer.init msg false dec)).2.2 = none ∧
      (write_ec net fuel (Serializer.init msg false dec)).2.1 =
        msg.headerBytes ++ msg.chunks.flatten := by
  obtain ⟨h1, h2, h3, h4, h5⟩ := driveLoop_spec Serializer.is_done net
    is_done_stop hnet fuel 0 (Serializer.init msg false dec)
    (WF_init msg false dec) (by rw [init_phase]; simp) hfuel
  refine ⟨h2, h1, ?_⟩
  have hph := (is_done_iff _).mp h2
  rw [wireRem_done _ hph, List.append_nil] at h5
  show (driveLoop Serializer.is_done net fuel 0
    (Serializer.init msg false dec)).2.1 = _
  rw [h5]
  show wireRem (Serializer.init msg false dec) = _
  rw [wireRem]
  simp only [Serializer.init, hm, bodyWire]
  rw [flatten_filter_nonempty]

/-- C5: on a serializer that is not done (and not failed), one
`write_some` call performs exactly one transport write invocation and
then consumes precisely the byte count that call reported written
(the minimum of the transport's capacity and the fragment size). -/
theorem write_some_bounded_work (sr : Serializer) (c : Nat) (hWF : WF sr)
    (hnd : sr.is_done = false) (hnf : sr.phase ≠ Phase.failed) :
    ∃ sr1, sr.next_fragment = .ok (sr1, sr1.pending) ∧
      (write_some (some c) sr).calls = 1 ∧
      (write_some (some c) sr).wire.length = min c sr1.pending.length ∧
      (write_some (some c) sr).sr =
        sr1.consume (write_some (some c) sr).wire.length := by
  obtain ⟨sr1, hok, hmid, hwr, hemp⟩ := next_fragment_produce sr hWF hnd hnf
  have hws : write_some (some c) sr =
      ⟨sr1.consume (min c sr1.pending.length),
        sr1.pending.take (min c sr1.pending.length), 1, none⟩ := by
    simp [write_some, hnd, hok]
  have hlen : (sr1.pending.take (min c sr1.pending.length)).length =
      min c sr1.pending.length := by
    rw [List.length_take]
    omega
  refine ⟨sr1, hok, ?_, ?_, ?_⟩
  · rw [hws]
  · rw [hws]
    exact hlen
  · rw [hws]
    simp only
    rw [hlen]

/-- C6: `write_header` (which sets `split(true)`) followed by manually
completing the body with further `write_some` calls transmits, byte for
byte, the same stream as `write` on a fresh serializer for the same
message, whatever the pacing of the two transports. -/
theorem split_pacing_same_bytes (msg : Message) (dec : Decorator)
    (net1 net1' net2 : Nat → Option Nat) (f1 f2 f3 : Nat)
    (h1 : ∀ j, ∃ c, net1 j = some c ∧ 1 ≤ c)
    (h1' : ∀ j, ∃ c, net1' j = some c ∧ 1 ≤ c)
    (h2 : ∀ j, ∃ c, net2 j = some c ∧ 1 ≤ c)
    (hf1 : meas (Serializer.init msg false dec) ≤ f1)
    (hf2 : meas (Serializer.init msg false dec) ≤ f2)
    (hf3 : meas (Serializer.init msg false dec) ≤ f3) :
    (write_header_ec net1 f1 (Serializer.init msg false dec)).1.is_header_done
        = true ∧
      (write_header_ec net1 f1 (Serializer.init msg false dec)).2.1 ++
        (driveLoop Serializer.is_done net1' f2 0
          (write_header_ec net1 f1 (Serializer.init msg false dec)).1).2.1 =
      (write_ec net2 f3 (Serializer.init msg false dec)).2.1 := by
  have hWF0 : WF ((Serializer.init msg false dec).set_split true) :=
    WF_init msg false dec
  have hnf0 : ((Serializer.init msg false dec).set_split true).phase ≠
      Phase.failed := by
    rw [show ((Serializer.init msg false dec).set_split true).phase =
      Phase.notStarted from rfl]
    simp
  have hmeq : meas ((Serializer.init msg false dec).set_split true) =
      meas (Serializer.init msg false dec) := rfl
  obtain ⟨a1, a2, a3, a4, a5⟩ := driveLoop_spec Serializer.is_header_done net1
    is_header_done_stop h1 f1 0 ((Serializer.init msg false dec).set_split true)
    hWF0 hnf0 (by omega)
  rw [write_header_ec]
  set s1 := (driveLoop Serializer.is_header_done net1 f1 0
    ((Serializer.init msg false dec).set_split true)).1 with hs1
  have hm1 : meas s1 ≤ f2 := by
    have hb : (wireRem s1).length ≤
        (wireRem ((Serializer.init msg false dec).set_split true)).length := by
      rw [← a5, List.length_append]
      omega
    have hbonus : s1.phase ≠ Phase.notStarted :=
      is_header_done_ne_notStarted s1 a2
    have : meas s1 = (wireRem s1).length := by
      simp [meas, hbonus]
    have hle : meas ((Serializer.init msg false dec).set_split true) ≤ f2 := by
      omega
    rw [meas] at hle
    omega
  obtain ⟨b1, b2, b3, b4, b5⟩ := driveLoop_spec Serializer.is_done net1'
    is_done_stop h1' f2 0 s1 a3 a4 hm1
  obtain ⟨c1, c2, c3, c4, c5⟩ := driveLoop_spec Serializer.is_done net2
    is_done_stop h2 f3 0 (Serializer.init msg false dec)
    (WF_init msg false dec) (by rw [init_phase]; simp) hf3
  refine ⟨a2, ?_⟩
  rw [wireRem_done _ ((is_done_iff _).mp b2), List.append_nil] at b5
  rw [wireRem_done _ ((is_done_iff _).mp c2), List.append_nil] at c5
  show _ = (driveLoop Serializer.is_done net2 f3 0
    (Serializer.init msg false dec)).2.1
  rw [b5, a5, c5]
  rfl

/-- C8: calling `next_fragment` once `is_done()` holds fails with the
serialization-usage error; a transport failure during `write_some`
leaves the serializer in the failed phase, from which `next_fragment`
fails and every further `write_some` performs no transport call, hands
over no bytes, and leaves the state unchanged. -/
theorem serializer_misuse_and_failed (sr : Serializer) (hWF : WF sr) :
    (sr.is_done = true → sr.next_fragment = .error Err.serializationError) ∧
      (sr.is_done = false → sr.phase ≠ Phase.failed →
        (write_some none sr).sr.phase = Phase.failed ∧
        (write_some none sr).ec = some Err.transportError ∧
        (write_some none sr).sr.next_fragment =
          .error Err.serializationError ∧
        ∀ cap, (write_some cap (write_some none sr).sr).ec =
            some Err.serializationError ∧
          (write_some cap (write_some none sr).sr).wire = [] ∧
          (write_some cap (write_some none sr).sr).calls = 0 ∧
          (write_some cap (write_some none sr).sr).sr =
            (write_some none sr).sr) := by
  constructor
  · intro hd
    have hph := (is_done_iff _).mp hd
    rw [Serializer.next_fragment]
    rw [if_neg (by rw [hph]; simp), if_pos hd]
  · intro hnd hnf
    obtain ⟨sr1, hok, hmid, hwr, hemp⟩ := next_fragment_produce sr hWF hnd hnf
    have hws : write_some none sr =
        ⟨{ sr1 with phase := Phase.failed }, [], 1,
          some Err.transportError⟩ := by
      simp [write_some, hnd, hok]
    rw [hws]
    have hphf : ({ sr1 with phase := Phase.failed } : Serializer).phase =
        Phase.failed := rfl
    have hnff : ({ sr1 with phase := Phase.failed } : Serializer).next_fragment
        = .error Err.serializationError := by
      rw [Serializer.next_fragment, if_pos hphf]
    refine ⟨rfl, rfl, hnff, ?_⟩
    intro cap
    have hndf : ({ sr1 with phase := Phase.failed } : Serializer).is_done
        = false := by
      rw [Serializer.is_done, hphf]
      simp
    have : write_some cap { sr1 with phase := Phase.failed } =
        ⟨{ sr1 with phase := Phase.failed }, [], 0,
          some Err.serializationError⟩ := by
      rw [write_some]
      rw [if_neg (by rw [hndf]; simp)]
      rw [hnff]
    rw [this]
    exact ⟨rfl, rfl, rfl, rfl⟩

/-- Throwing overload of `write_some`: runs the error-code overload and
converts a reported failure into a thrown error, leaving serializer and
transmitted bytes as the error-code overload does. -/
def write_some_throwing (cap : Option Nat) (sr : Serializer) :
    (Serializer × List Nat) × Option Err :=
  let r := write_some cap sr
  ((r.sr, r.wire), r.ec)

/-- Throwing overload of `write_header`: runs the error-code overload
and converts a reported failure into a thrown error. -/
def write_header_throwing (net : Nat → Option Nat) (fuel : Nat)
    (sr : Serializer) : (Serializer × List Nat) × Option Err :=
  let r := write_header_ec net fuel sr
  ((r.1, r.2.1), r.2.2)

/-- Throwing overload of serializer-form `write`: runs the error-code
overload and converts a reported failure into a thrown error. -/
def write_throwing (net : Nat → Option Nat) (fuel : Nat)
    (sr : Serializer) : (Serializer × List Nat) × Option Err :=
  let r := write_ec net fuel sr
  ((r.1, r.2.1), r.2.2)

/-- C9: each throwing overload is equivalent to its error-code overload:
same serializer state, same transmitted bytes, and it throws exactly
when the error-code overload reports a failure (so it returns normally
whenever the error-code overload completes without error). -/
theorem throwing_overloads_equiv (cap : Option Nat)
    (net : Nat → Option Nat) (fuel : Nat) (sr : Serializer) :
    ((write_some_throwing cap sr).1.1 = (write_some cap sr).sr ∧
      (write_some_throwing cap sr).1.2 = (write_some cap sr).wire ∧
      ((write_some_throwing cap sr).2 = none ↔ (write_some cap sr).ec = none)) ∧
    ((write_header_throwing net fuel sr).1.1 =
        (write_header_ec net fuel sr).1 ∧
      (write_header_throwing net fuel sr).1.2 =
        (write_header_ec net fuel sr).2.1 ∧
      ((write_header_throwing net fuel sr).2 = none ↔
        (write_header_ec net fuel sr).2.2 = none)) ∧
    ((write_throwing net fuel sr).1.1 = (write_ec net fuel sr).1 ∧
      (write_throwing net fuel sr).1.2 = (write_ec net fuel sr).2.1 ∧
      ((write_throwing net fuel sr).2 = none ↔
        (write_ec net fuel sr).2.2 = none)) :=
  ⟨⟨rfl, rfl, Iff.rfl⟩, ⟨rfl, rfl, Iff.rfl⟩, ⟨rfl, rfl, Iff.rfl⟩⟩

/-! ### Dechunking: the inverse reading of the chunked wire format -/

/-- Lowercase hexadecimal digit bytes recognised by the dechunker. -/
def isHexDigitB (b : Nat) : Bool :=
  (48 ≤ b && b ≤ 57) || (97 ≤ b && b ≤ 102)

/-- Numeric value of a hexadecimal digit byte. -/
def hexVal (b : Nat) : Nat :=
  if b ≤ 57 then b - 48 else b - 87

/-- Value of a big-endian string of hexadecimal digit bytes. -/
def parseHexDigits (bs : List Nat) : Nat :=
  bs.foldl (fun a b => 16 * a + hexVal b) 0

/-- One reading pass over a chunked body stream: read a hexadecimal
size line terminated by CRLF; a zero size ends the stream (followed by
its final CRLF); otherwise take that many data bytes and their trailing
CRLF and continue.  Returns the concatenation of all chunk data
sections, discarding size lines, chunk CRLFs and the terminator. -/
def dechunkF : Nat → List Nat → Option (List Nat)
  | 0, _ => none
  | f + 1, bs =>
      let ds := bs.takeWhile isHexDigitB
      if ds.isEmpty then none
      else
        match bs.dropWhile isHexDigitB with
        | a :: b :: r2 =>
            if a = 13 ∧ b = 10 then
              let n := parseHexDigits ds
              if n = 0 then (if r2 = crlf then some [] else none)
              else if n ≤ r2.length then
                match r2.drop n with
                | x :: y :: r3 =>
                    if x = 13 ∧ y = 10 then
                      (dechunkF f r3).map (fun t => r2.take n ++ t)
                    else none
                | _ => none
              else none
            else none
        | _ => none

/-- Dechunk a complete chunked body stream. -/
def dechunk (bs : List Nat) : Option (List Nat) :=
  dechunkF (bs.length + 1) bs

theorem hexVal_hexDigitNat (d : Nat) (hd : d < 16) :
    hexVal (hexDigitNat d) = d := by
  by_cases h : d < 10
  · have h1 : hexDigitNat d = 48 + d := by rw [hexDigitNat, if_pos h]
    rw [h1, hexVal, if_pos (by omega : 48 + d ≤ 57)]
    omega
  · have h1 : hexDigitNat d = 87 + d := by rw [hexDigitNat, if_neg h]
    rw [h1, hexVal, if_neg (by omega : ¬ 87 + d ≤ 57)]
    omega

theorem isHexDigitB_hexDigitNat (d : Nat) (hd : d < 16) :
    isHexDigitB (hexDigitNat d) = true := by
  by_cases h : d < 10
  · have h1 : hexDigitNat d = 48 + d := by rw [hexDigitNat, if_pos h]
    rw [h1, isHexDigitB]
    simp only [Bool.or_eq_true, Bool.and_eq_true, decide_eq_true_eq]
    omega
  · have h1 : hexDigitNat d = 87 + d := by rw [hexDigitNat, if_neg h]
    rw [h1, isHexDigitB]
    simp only [Bool.or_eq_true, Bool.and_eq_true, decide_eq_true_eq]
    omega

theorem hexBytes_all_hex (n : Nat) :
    ∀ b ∈ hexBytes n, isHexDigitB b = true := by
  intro b hb
  unfold hexBytes at hb
  split at hb
  · simp at hb
    subst hb
    decide
  · next hz =>
    rw [hexDigitsLE_eq_digits n n (le_refl n)] at hb
    obtain ⟨d, hd, rfl⟩ := List.mem_map.mp hb
    exact isHexDigitB_hexDigitNat d
      (Nat.digits_lt_base (by norm_num) (List.mem_reverse.mp hd))

theorem takeWhile_append_all (p : Nat → Bool) (xs ys : List Nat)
    (h : ∀ x ∈ xs, p x = true) :
    (xs ++ ys).takeWhile p = xs ++ ys.takeWhile p := by
  induction xs with
  | nil => simp
  | cons a l ih =>
    have ha : p a = true := h a (List.mem_cons_self a l)
    simp [List.takeWhile_cons, ha,
      ih (fun x hx => h x (List.mem_cons_of_mem a hx))]

theorem dropWhile_append_all (p : Nat → Bool) (xs ys : List Nat)
    (h : ∀ x ∈ xs, p x = true) :
    (xs ++ ys).dropWhile p = ys.dropWhile p := by
  induction xs with
  | nil => simp
  | cons a l ih =>
    have ha : p a = true := h a (List.mem_cons_self a l)
    simp [List.dropWhile_cons, ha,
      ih (fun x hx => h x (List.mem_cons_of_mem a hx))]

theorem parseHexDigits_step (ds : List Nat) (a : Nat)
    (h : ∀ d ∈ ds, d < 16) :
    (ds.reverse.map hexDigitNat).foldl (fun a b => 16 * a + hexVal b) a =
      a * 16 ^ ds.length + Nat.ofDigits 16 ds := by
  induction ds generalizing a with
  | nil => simp [Nat.ofDigits]
  | cons d ds ih =>
    rw [List.reverse_cons, List.map_append, List.foldl_append]
    rw [ih a (fun x hx => h x (List.mem_cons_of_mem d hx))]
    simp only [List.map_cons, List.map_nil, List.foldl_cons, List.foldl_nil]
    rw [hexVal_hexDigitNat d (h d (List.mem_cons_self d ds)),
      Nat.ofDigits_cons, List.length_cons, pow_succ]
    ring

theorem parseHexDigits_hexBytes (n : Nat) :
    parseHexDigits (hexBytes n) = n := by
  unfold hexBytes parseHexDigits
  by_cases h : n = 0
  · simp [h, hexVal]
  · rw [if_neg h, hexDigitsLE_eq_digits n n (le_refl n)]
    have := parseHexDigits_step (Nat.digits 16 n) 0
      (fun d hd => Nat.digits_lt_base (by norm_num) hd)
    rw [this, Nat.ofDigits_digits]
    simp

theorem framesFrom_length_ge (dec : Decorator) (i : Nat)
    (cs : List (List Nat)) : cs.length ≤ (framesFrom dec i cs).length := by
  induction cs generalizing i with
  | nil => simp
  | cons c cs ih =>
    rw [framesFrom, List.length_append, List.length_cons]
    have h1 : 1 ≤ (chunkFrame (dec.ext i c) c).length :=
      List.length_pos.mpr (chunkFrame_ne_nil _ _)
    have h2 := ih (i + 1)
    omega

theorem dechunkF_frames (cs : List (List Nat)) :
    ∀ i fuel, (∀ c ∈ cs, c ≠ []) → cs.length + 1 ≤ fuel →
      dechunkF fuel (framesFrom noDecorator i cs) = some cs.flatten := by
  induction cs with
  | nil =>
    intro i fuel h hf
    obtain ⟨f, rfl⟩ : ∃ f, fuel = f + 1 := ⟨fuel - 1, by omega⟩
    show dechunkF (f + 1) (chunkTerminator noDecorator) = some []
    simp [dechunkF, chunkTerminator, noDecorator, crlf, isHexDigitB,
      parseHexDigits, hexVal, List.takeWhile_cons, List.dropWhile_cons]
  | cons c cs ih =>
    intro i fuel h hf
    obtain ⟨f, rfl⟩ : ∃ f, fuel = f + 1 := ⟨fuel - 1, by omega⟩
    have hc : c ≠ [] := h c (List.mem_cons_self c cs)
    have hlen : c.length ≠ 0 := by
      simpa [List.length_eq_zero] using hc
    have hbytes : framesFrom noDecorator i (c :: cs) =
        hexBytes c.length ++
          (13 :: 10 :: (c ++ (13 :: 10 :: framesFrom noDecorator (i + 1) cs))) := by
      simp [framesFrom, chunkFrame, noDecorator, crlf]
    rw [hbytes]
    have htake : (hexBytes c.length ++
        (13 :: 10 :: (c ++ (13 :: 10 :: framesFrom noDecorator (i + 1) cs)))).takeWhile
          isHexDigitB = hexBytes c.length := by
      rw [takeWhile_append_all _ _ _ (hexBytes_all_hex _)]
      simp [List.takeWhile_cons, isHexDigitB]
    have hdrop : (hexBytes c.length ++
        (13 :: 10 :: (c ++ (13 :: 10 :: framesFrom noDecorator (i + 1) cs)))).dropWhile
          isHexDigitB =
        13 :: 10 :: (c ++ (13 :: 10 :: framesFrom noDecorator (i + 1) cs)) := by
      rw [dropWhile_append_all _ _ _ (hexBytes_all_hex _)]
      simp [List.dropWhile_cons, isHexDigitB]
    have hne : (hexBytes c.length).isEmpty = false := by
      cases hE : (hexBytes c.length).isEmpty
      · rfl
      · exact absurd (List.isEmpty_iff.mp hE) (hexBytes_ne_nil _)
    simp only [dechunkF, htake, hdrop, hne, Bool.false_eq_true, if_false,
      parseHexDigits_hexBytes, if_neg hlen]
    simp [ih (i + 1) f (fun x hx => h x (List.mem_cons_of_mem c hx))
      (by simpa using Nat.succ_le_succ_iff.mp hf)]

theorem dechunk_frames (cs : List (List Nat)) (i : Nat)
    (h : ∀ c ∈ cs, c ≠ []) :
    dechunk (framesFrom noDecorator i cs) = some cs.flatten := by
  unfold dechunk
  apply dechunkF_frames cs i _ h
  have := framesFrom_length_ge noDecorator i cs
  omega

/-- Shared transcript computation for chunked framing: serializer-form
`write` transmits the header followed by the Chunk Framer's encoding of
the nonempty source chunks and the terminator. -/
theorem chunked_write_transcript (msg : Message) (net : Nat → Option Nat)
    (fuel : Nat) (hm : msg.mode = FramingMode.chunked)
    (hnet : ∀ j, ∃ c, net j = some c ∧ 1 ≤ c)
    (hfuel : meas (Serializer.init msg false noDecorator) ≤ fuel) :
    (write_ec net fuel (Serializer.init msg false noDecorator)).1.is_done
        = true ∧
      (write_ec net fuel (Serializer.init msg false noDecorator)).2.2 =
        none ∧
      (write_ec net fuel (Serializer.init msg false noDecorator)).2.1 =
        msg.headerBytes ++
          framesFrom noDecorator 0
            (msg.chunks.filter (fun c => !c.isEmpty)) := by
  obtain ⟨h1, h2, h3, h4, h5⟩ := driveLoop_spec Serializer.is_done net
    is_done_stop hnet fuel 0 (Serializer.init msg false noDecorator)
    (WF_init msg false noDecorator) (by rw [init_phase]; simp) hfuel
  refine ⟨h2, h1, ?_⟩
  have hph := (is_done_iff _).mp h2
  rw [wireRem_done _ hph, List.append_nil] at h5
  show (driveLoop Serializer.is_done net fuel 0
    (Serializer.init msg false noDecorator)).2.1 = _
  rw [h5]
  show wireRem (Serializer.init msg false noDecorator) = _
  rw [wireRem]
  simp only [Serializer.init, hm, bodyWire]

/-- C2: with chunked framing, a never-failing transport and enough
fuel, the full transmitted stream is the header followed by a chunked
body, and dechunking that body (concatenating the chunk data sections,
discarding size lines, chunk CRLFs and the terminator) yields exactly
the byte sequence produced by the Body-Chunk Source, in order, with no
duplication or loss. -/
theorem chunked_dechunk_source_bytes (msg : Message) (net : Nat → Option Nat)
    (fuel : Nat) (hm : msg.mode = FramingMode.chunked)
    (hnet : ∀ j, ∃ c, net j = some c ∧ 1 ≤ c)
    (hfuel : meas (Serializer.init msg false noDecorator) ≤ fuel) :
    (write_ec net fuel (Serializer.init msg false noDecorator)).1.is_done
        = true ∧
      (write_ec net fuel (Serializer.init msg false noDecorator)).2.2
        = none ∧
      ∃ body,
        (write_ec net fuel (Serializer.init msg false noDecorator)).2.1 =
          msg.headerBytes ++ body ∧
        dechunk body = some msg.chunks.flatten := by
  obtain ⟨h1, h2, h3⟩ := chunked_write_transcript msg net fuel hm hnet hfuel
  have hmem : ∀ c ∈ msg.chunks.filter (fun c => !c.isEmpty), c ≠ [] := by
    intro c hc
    have := (List.mem_filter.mp hc).2
    simpa [List.isEmpty_iff] using this
  refine ⟨h1, h2, _, h3, ?_⟩
  rw [dechunk_frames _ 0 hmem, flatten_filter_nonempty]

/-- Witness for C2 at source chunks `["abc", "", "de"]` with a
three-bytes-per-call transport. -/
theorem chunked_dechunk_source_bytes_witness :
    (write_ec (fun _ => some 3) 60
        (Serializer.init ⟨[104, 13, 10, 13, 10], FramingMode.chunked,
          [[97, 98, 99], [], [100, 101]]⟩ false noDecorator)).1.is_done
        = true ∧
      (write_ec (fun _ => some 3) 60
        (Serializer.init ⟨[104, 13, 10, 13, 10], FramingMode.chunked,
          [[97, 98, 99], [], [100, 101]]⟩ false noDecorator)).2.2 = none ∧
      ∃ body,
        (write_ec (fun _ => some 3) 60
          (Serializer.init ⟨[104, 13, 10, 13, 10], FramingMode.chunked,
            [[97, 98, 99], [], [100, 101]]⟩ false noDecorator)).2.1 =
          [104, 13, 10, 13, 10] ++ body ∧
        dechunk body = some [97, 98, 99, 100, 101] :=
  chunked_dechunk_source_bytes
    ⟨[104, 13, 10, 13, 10], FramingMode.chunked,
      [[97, 98, 99], [], [100, 101]]⟩
    (fun _ => some 3) 60 rfl (fun _ => ⟨3, rfl, by omega⟩) (by decide)

/-- C7: in chunked framing a zero-length chunk yielded by the source
before exhaustion is skipped: the transmitted stream is the header
followed by the Chunk Framer's encoding of exactly the nonempty source
chunks, then the single terminating zero-size chunk. -/
theorem chunked_skips_empty_chunks (msg : Message) (net : Nat → Option Nat)
    (fuel : Nat) (hm : msg.mode = FramingMode.chunked)
    (hnet : ∀ j, ∃ c, net j = some c ∧ 1 ≤ c)
    (hfuel : meas (Serializer.init msg false noDecorator) ≤ fuel) :
    (write_ec net fuel (Serializer.init msg false noDecorator)).2.1 =
      msg.headerBytes ++
        framesFrom noDecorator 0
          (msg.chunks.filter (fun c => !c.isEmpty)) :=
  (chunked_write_transcript msg net fuel hm hnet hfuel).2.2

/-- Witness for C7: for source chunks `["abc", "", "de"]` the body on
the wire is exactly two data chunks with lowercase hex size lines `3`
and `2` and the single terminator `0 CRLF CRLF`; no zero-size
non-terminal chunk appears. -/
theorem chunked_skips_empty_chunks_witness :
    (write_ec (fun _ => some 3) 60
        (Serializer.init ⟨[104, 13, 10, 13, 10], FramingMode.chunked,
          [[97, 98, 99], [], [100, 101]]⟩ false noDecorator)).2.1 =
      [104, 13, 10, 13, 10] ++
        ([51, 13, 10, 97, 98, 99, 13, 10] ++
          ([50, 13, 10, 100, 101, 13, 10] ++ [48, 13, 10, 13, 10])) := by
  have h := chunked_skips_empty_chunks
    ⟨[104, 13, 10, 13, 10], FramingMode.chunked,
      [[97, 98, 99], [], [100, 101]]⟩
    (fun _ => some 3) 60 rfl (fun _ => ⟨3, rfl, by omega⟩) (by decide)
  rw [h]
  decide

/-- Witness for C1 at a concrete content-length message and a transport
that accepts exactly one byte per call. -/
theorem contentLength_write_transcript_witness :
    (write_ec (fun _ => some 1) 20
        (Serializer.init ⟨[72, 13, 10, 13, 10], FramingMode.contentLength,
          [[1, 2], [], [3]]⟩ false noDecorator)).1.is_done = true ∧
      (write_ec (fun _ => some 1) 20
        (Serializer.init ⟨[72, 13, 10, 13, 10], FramingMode.contentLength,
          [[1, 2], [], [3]]⟩ false noDecorator)).2.2 = none ∧
      (write_ec (fun _ => some 1) 20
        (Serializer.init ⟨[72, 13, 10, 13, 10], FramingMode.contentLength,
          [[1, 2], [], [3]]⟩ false noDecorator)).2.1 =
        [72, 13, 10, 13, 10] ++ [[1, 2], [], [3]].flatten :=
  contentLength_write_transcript
    ⟨[72, 13, 10, 13, 10], FramingMode.contentLength, [[1, 2], [], [3]]⟩
    noDecorator (fun _ => some 1) 20 rfl (fun _ => ⟨1, rfl, le_refl 1⟩)
    (by decide)

/-- Witness for C5 on a fresh serializer and a transport capacity of 7. -/
theorem write_some_bounded_work_witness :
    ∃ sr1, (Serializer.init ⟨[72], FramingMode.contentLength, [[5]]⟩ false
        noDecorator).next_fragment = .ok (sr1, sr1.pending) ∧
      (write_some (some 7) (Serializer.init ⟨[72],
        FramingMode.contentLength, [[5]]⟩ false noDecorator)).calls = 1 ∧
      (write_some (some 7) (Serializer.init ⟨[72],
        FramingMode.contentLength, [[5]]⟩ false noDecorator)).wire.length =
        min 7 sr1.pending.length ∧
      (write_some (some 7) (Serializer.init ⟨[72],
        FramingMode.contentLength, [[5]]⟩ false noDecorator)).sr =
        sr1.consume ((write_some (some 7) (Serializer.init ⟨[72],
          FramingMode.contentLength, [[5]]⟩ false noDecorator)).wire.length) :=
  write_some_bounded_work
    (Serializer.init ⟨[72], FramingMode.contentLength, [[5]]⟩ false
      noDecorator) 7
    (WF_init _ _ _) rfl (by rw [init_phase]; simp)

/-- Witness for C6 at a concrete message with different pacings for the
split and unsplit transmissions. -/
theorem split_pacing_same_bytes_witness :
    (write_header_ec (fun _ => some 2) 30
        (Serializer.init ⟨[72, 13, 10, 13, 10], FramingMode.contentLength,
          [[1, 2, 3], [4]]⟩ false noDecorator)).1.is_header_done = true ∧
      (write_header_ec (fun _ => some 2) 30
        (Serializer.init ⟨[72, 13, 10, 13, 10], FramingMode.contentLength,
          [[1, 2, 3], [4]]⟩ false noDecorator)).2.1 ++
        (driveLoop Serializer.is_done (fun _ => some 1) 30 0
          (write_header_ec (fun _ => some 2) 30
            (Serializer.init ⟨[72, 13, 10, 13, 10],
              FramingMode.contentLength,
              [[1, 2, 3], [4]]⟩ false noDecorator)).1).2.1 =
      (write_ec (fun _ => some 5) 30
        (Serializer.init ⟨[72, 13, 10, 13, 10], FramingMode.contentLength,
          [[1, 2, 3], [4]]⟩ false noDecorator)).2.1 :=
  split_pacing_same_bytes
    ⟨[72, 13, 10, 13, 10], FramingMode.contentLength, [[1, 2, 3], [4]]⟩
    noDecorator (fun _ => some 2) (fun _ => some 1) (fun _ => some 5)
    30 30 30
    (fun _ => ⟨2, rfl, by omega⟩) (fun _ => ⟨1, rfl, by omega⟩)
    (fun _ => ⟨5, rfl, by omega⟩)
    (by decide) (by decide) (by decide)

/-- Witness for C8 on a fresh serializer hitting a transport failure. -/
theorem serializer_misuse_and_failed_witness :
    ((Serializer.init ⟨[72], FramingMode.contentLength, [[5]]⟩ false
        noDecorator).is_done = true →
      (Serializer.init ⟨[72], FramingMode.contentLength, [[5]]⟩ false
        noDecorator).next_fragment = .error Err.serializationError) ∧
      ((Serializer.init ⟨[72], FramingMode.contentLength, [[5]]⟩ false
          noDecorator).is_done = false →
        (Serializer.init ⟨[72], FramingMode.contentLength, [[5]]⟩ false
          noDecorator).phase ≠ Phase.failed →
        (write_some none (Serializer.init ⟨[72], FramingMode.contentLength,
          [[5]]⟩ false noDecorator)).sr.phase = Phase.failed ∧
        (write_some none (Serializer.init ⟨[72], FramingMode.contentLength,
          [[5]]⟩ false noDecorator)).ec = some Err.transportError ∧
        (write_some none (Serializer.init ⟨[72], FramingMode.contentLength,
          [[5]]⟩ false noDecorator)).sr.next_fragment =
          .error Err.serializationError ∧
        ∀ cap, (write_some cap (write_some none (Serializer.init ⟨[72],
              FramingMode.contentLength, [[5]]⟩ false noDecorator)).sr).ec =
            some Err.serializationError ∧
          (write_some cap (write_some none (Serializer.init ⟨[72],
            FramingMode.contentLength, [[5]]⟩ false noDecorator)).sr).wire
            = [] ∧
          (write_some cap (write_some none (Serializer.init ⟨[72],
            FramingMode.contentLength, [[5]]⟩ false noDecorator)).sr).calls
            = 0 ∧
          (write_some cap (write_some none (Serializer.init ⟨[72],
            FramingMode.contentLength, [[5]]⟩ false noDecorator)).sr).sr =
            (write_some none (Serializer.init ⟨[72],
              FramingMode.contentLength, [[5]]⟩ false noDecorator)).sr) :=
  serializer_misuse_and_failed
    (Serializer.init ⟨[72], FramingMode.contentLength, [[5]]⟩ false
      noDecorator) (WF_init _ _ _)

/-! ### Asynchronous composed operations and the deferred scheduler -/

/-- Events observable at the boundary of an asynchronous operation: one
transport `async_write_some` call, or one invocation of the user's
completion handler. -/
inductive AEvent
  | transportCall (k : Nat)
  | handlerCall (res : Option Err)
deriving DecidableEq, Repr

/-- Pending scheduler tasks of a composed write operation: run the next
write step (with transport call index `k`), or invoke the completion
handler with a result. -/
inductive Task
  | step (k : Nat) (sr : Serializer)
  | finish (res : Option Err)

/-- Modelled from the spec (§4.3): the shape of a composed asynchronous
write operation: its stop condition, whether it completes after a
single transport write (`async_write_some`), and the final mapping
applied to a successful result. -/
structure AOp where
  stop : Serializer → Bool
  once : Bool
  fin : Option Err → Option Err

/-- `async_write_some`: one bounded write, then complete. -/
def asyncWriteSomeOp : AOp := ⟨Serializer.is_done, true, id⟩

/-- `async_write_header`: steps until `is_header_done()`. -/
def asyncWriteHeaderOp : AOp := ⟨Serializer.is_header_done, false, id⟩

/-- Serializer-form `async_write`: steps until `is_done()`. -/
def asyncWriteOp : AOp := ⟨Serializer.is_done, false, id⟩

/-- Modelled from the spec (§4.3): final result mapping of the
message-form write: a success becomes `end_of_stream` exactly when the
framing mode is close-delimited. -/
def finEos (mode : FramingMode) : Option Err → Option Err
  | none =>
      if mode = FramingMode.closeDelimited then some Err.endOfStream
      else none
  | some e => some e

/-- Message-form `async_write`: steps until `is_done()`, then applies
the close-delimited mapping to a successful result. -/
def asyncWriteMsgOp (mode : FramingMode) : AOp :=
  ⟨Serializer.is_done, false, finEos mode⟩

/-- Scheduler state of one composed operation: the queue of posted
tasks, the trace of boundary events tagged with the scheduler turn in
which they happened, and the next turn number. -/
structure ASt where
  queue : List Task
  trace : List (Nat × AEvent)
  turn : Nat

/-- Modelled from the spec (§4.3, §6): one task execution.  A step task
first checks the stop condition, posting the handler invocation on
completion; otherwise it issues exactly one transport write via
`write_some` and posts either the handler (on error, or for the
single-write operation) or the next step.  A finish task invokes the
completion handler. -/
def doTask (op : AOp) (net : Nat → Option Nat) (turn : Nat) :
    Task → List Task × List (Nat × AEvent)
  | .finish res => ([], [(turn, .handlerCall res)])
  | .step k sr =>
      if op.stop sr then ([.finish (op.fin none)], [])
      else
        let r := write_some (net k) sr
        let evs :=
          if r.calls = 0 then [] else [(turn, AEvent.transportCall k)]
        match r.ec with
        | some e => ([.finish (some e)], evs)
        | none =>
            if op.once then ([.finish (op.fin none)], evs)
            else ([.step (k + 1) r.sr], evs)

/-- The deferred scheduler: runs queued tasks in FIFO order, one task
per turn. -/
def runSched (op : AOp) (net : Nat → Option Nat) : Nat → ASt → ASt
  | 0, s => s
  | f + 1, s =>
      match s.queue with
      | [] => s
      | t :: ts =>
          let r := doTask op net s.turn t
          runSched op net f ⟨ts ++ r.1, s.trace ++ r.2, s.turn + 1⟩

/-- Modelled from the spec (§4.3) and the header documentation
(the handler will not be invoked from within the initiating function;
invocation is performed in a manner equivalent to `post`): the
initiating call performs no transport call and no handler invocation;
it only posts the operation's first task.  Turn 0 is the initiating
call itself; posted work runs from turn 1. -/
def initiate (op : AOp) (sr : Serializer) : ASt :=
  ⟨[Task.step 0 sr], [], 1⟩

theorem runSched_nil (op : AOp) (net : Nat → Option Nat) :
    ∀ f s, ASt.queue s = [] → runSched op net f s = s := by
  intro f
  induction f with
  | zero => intro s _; rfl
  | succ f _ =>
    intro s h
    obtain ⟨q, tr, tn⟩ := s
    simp only at h
    subst h
    rfl

theorem doTask_events_turn (op : AOp) (net : Nat → Option Nat)
    (turn : Nat) (tk : Task) :
    ∀ q ∈ (doTask op net turn tk).2, q.1 = turn := by
  intro q hq
  cases tk with
  | finish res =>
    simp only [doTask, List.mem_singleton] at hq
    rw [hq]
  | step k sr =>
    simp only [doTask] at hq
    split at hq
    · simp at hq
    · split at hq
      · split at hq <;> simp_all
      · split at hq <;> split at hq <;> simp_all

/-- C4: the completion handler of an asynchronous write operation —
`async_write_some`, `async_write_header`, `async_write`, indeed any
composed operation of this family — is never invoked from within the
initiating call: initiation itself produces no handler event, and in
every scheduler run each handler invocation happens at turn 1 or later,
strictly after the initiating call (turn 0) has returned. -/
theorem async_handler_never_inline (op : AOp) (sr : Serializer)
    (net : Nat → Option Nat) (fuel : Nat) :
    (∀ t res, (t, AEvent.handlerCall res) ∉ (initiate op sr).trace) ∧
      (∀ t res, (t, AEvent.handlerCall res) ∈
          (runSched op net fuel (initiate op sr)).trace → 1 ≤ t) := by
  constructor
  · intro t res h
    simp [initiate] at h
  · have key : ∀ f s, (∀ p ∈ ASt.trace s, 1 ≤ p.1) → 1 ≤ s.turn →
        ∀ p ∈ (runSched op net f s).trace, 1 ≤ p.1 := by
      intro f
      induction f with
      | zero => intro s hs _ p hp; exact hs p hp
      | succ f ih =>
        intro s hs ht p hp
        rw [runSched] at hp
        cases hq : s.queue with
        | nil =>
          rw [hq] at hp
          exact hs p hp
        | cons t0 ts =>
          rw [hq] at hp
          refine ih _ ?_ (Nat.le_succ_of_le ht) p hp
          intro x hx
          rcases List.mem_append.mp hx with h | h
          · exact hs x h
          · rw [doTask_events_turn op net s.turn t0 x h]
            exact ht
    intro t res hmem
    exact key fuel (initiate op sr) (by simp [initiate])
      (by simp [initiate]) (t, AEvent.handlerCall res) hmem

/-- C10: `async_write_some` invoked on a serializer that is already
done performs zero transport calls, yet the completion handler is
invoked exactly once, with no error, and not from within the initiating
call: initiation produces no events, and the whole run's trace is the
single handler event at scheduler turn 2. -/
theorem async_write_some_done_posts_handler (sr : Serializer)
    (net : Nat → Option Nat) (fuel : Nat) (h : sr.is_done = true)
    (hf : 2 ≤ fuel) :
    (initiate asyncWriteSomeOp sr).trace = [] ∧
      (runSched asyncWriteSomeOp net fuel
          (initiate asyncWriteSomeOp sr)).trace =
        [(2, AEvent.handlerCall none)] ∧
      ∀ t k, (t, AEvent.transportCall k) ∉
        (runSched asyncWriteSomeOp net fuel
          (initiate asyncWriteSomeOp sr)).trace := by
  obtain ⟨f, rfl⟩ : ∃ f, fuel = f + 2 := ⟨fuel - 2, by omega⟩
  have hstep1 : doTask asyncWriteSomeOp net 1 (Task.step 0 sr) =
      ([Task.finish none], []) := by
    simp [doTask, asyncWriteSomeOp, h]
  have hrun : runSched asyncWriteSomeOp net (f + 2)
      (initiate asyncWriteSomeOp sr) =
      ⟨[], [(2, AEvent.handlerCall none)], 3⟩ := by
    show runSched asyncWriteSomeOp net (f + 1 + 1)
      ⟨[Task.step 0 sr], [], 1⟩ = _
    rw [runSched]
    simp only [hstep1, List.nil_append]
    rw [runSched]
    simp only [doTask, List.nil_append]
    exact runSched_nil asyncWriteSomeOp net f _ rfl
  refine ⟨rfl, ?_, ?_⟩
  · rw [hrun]
  · intro t k hmem
    rw [hrun] at hmem
    simp at hmem

/-- C3: the message-form write completes, after successful full
transmission over a never-failing transport, with the distinguished
`end_of_stream` condition exactly when the framing mode is
close-delimited (sync form); and every completion-handler invocation of
the asynchronous message-form write under a never-failing transport
carries `end_of_stream` exactly when the framing mode is
close-delimited. -/
theorem write_msg_endOfStream (msg : Message) (net net2 : Nat → Option Nat)
    (fuel fuel2 : Nat)
    (hnet : ∀ j, ∃ c, net j = some c ∧ 1 ≤ c)
    (hfuel : meas (Serializer.init msg false noDecorator) ≤ fuel)
    (hnet2 : ∀ j, ∃ c, net2 j = some c ∧ 1 ≤ c) :
    ((write_msg_ec net fuel msg).2 = some Err.endOfStream ↔
        msg.mode = FramingMode.closeDelimited) ∧
      ∀ t res, (t, AEvent.handlerCall res) ∈
          (runSched (asyncWriteMsgOp msg.mode) net2 fuel2
            (initiate (asyncWriteMsgOp msg.mode)
              (Serializer.init msg false noDecorator))).trace →
        (res = some Err.endOfStream ↔
          msg.mode = FramingMode.closeDelimited) := by
  have hres : (finEos msg.mode none = some Err.endOfStream ↔
      msg.mode = FramingMode.closeDelimited) := by
    by_cases hcd : msg.mode = FramingMode.closeDelimited
    · simp [finEos, hcd]
    · simp [finEos, hcd]
  constructor
  · obtain ⟨h1, h2, h3, h4, h5⟩ := driveLoop_spec Serializer.is_done net
      is_done_stop hnet fuel 0 (Serializer.init msg false noDecorator)
      (WF_init msg false noDecorator) (by rw [init_phase]; simp) hfuel
    have hms : (write_msg_ec net fuel msg).2 = finEos msg.mode none := by
      rw [write_msg_ec]
      simp only [write_ec] at h1 ⊢
      rw [h1]
      rfl
    rw [hms]
    exact hres
  · have key : ∀ f s,
        (∀ tk ∈ ASt.queue s,
          (∀ res, tk = Task.finish res →
            (res = some Err.endOfStream ↔
              msg.mode = FramingMode.closeDelimited)) ∧
          (∀ k sr, tk = Task.step k sr →
            WF sr ∧ sr.phase ≠ Phase.failed)) →
        (∀ t res, (t, AEvent.handlerCall res) ∈ ASt.trace s →
          (res = some Err.endOfStream ↔
            msg.mode = FramingMode.closeDelimited)) →
        ∀ t res, (t, AEvent.handlerCall res) ∈
            (runSched (asyncWriteMsgOp msg.mode) net2 f s).trace →
          (res = some Err.endOfStream ↔
            msg.mode = FramingMode.closeDelimited) := by
      intro f
      induction f with
      | zero => intro s _ htr t res hm; exact htr t res hm
      | succ f ih =>
        intro s hq htr t res hm
        rw [runSched] at hm
        cases hqe : s.queue with
        | nil =>
          rw [hqe] at hm
          exact htr t res hm
        | cons t0 ts =>
          rw [hqe] at hm
          have ht0 := hq t0 (hqe ▸ List.mem_cons_self t0 ts)
          have hqtail : ∀ tk ∈ ts,
              (∀ res, tk = Task.finish res →
                (res = some Err.endOfStream ↔
                  msg.mode = FramingMode.closeDelimited)) ∧
              (∀ k sr, tk = Task.step k sr →
                WF sr ∧ sr.phase ≠ Phase.failed) :=
            fun tk htk => hq tk (hqe ▸ List.mem_cons_of_mem t0 htk)
          cases t0 with
          | finish res0 =>
            have hP := ht0.1 res0 rfl
            have hdo : doTask (asyncWriteMsgOp msg.mode) net2 s.turn
                (Task.finish res0) =
                ([], [(s.turn, AEvent.handlerCall res0)]) := rfl
            have hm2 : (t, AEvent.handlerCall res) ∈
                (runSched (asyncWriteMsgOp msg.mode) net2 f
                  ⟨ts ++ (doTask (asyncWriteMsgOp msg.mode) net2 s.turn
                      (Task.finish res0)).1,
                    s.trace ++ (doTask (asyncWriteMsgOp msg.mode) net2 s.turn
                      (Task.finish res0)).2, s.turn + 1⟩).trace := hm
            rw [hdo] at hm2
            refine ih _ ?_ ?_ t res hm2
            · intro tk htk
              simp only [List.append_nil] at htk
              exact hqtail tk htk
            · intro t' res' hm'
              rcases List.mem_append.mp hm' with h | h
              · exact htr t' res' h
              · simp only [List.mem_singleton, Prod.mk.injEq] at h
                have : res' = res0 := by
                  have := h.2
                  injection this
                rw [this]
                exact hP
          | step k0 sr0 =>
            obtain ⟨hWF0, hnf0⟩ := ht0.2 k0 sr0 rfl
            by_cases hstop : (asyncWriteMsgOp msg.mode).stop sr0 = true
            · have hdo : doTask (asyncWriteMsgOp msg.mode) net2 s.turn
                  (Task.step k0 sr0) =
                  ([Task.finish (finEos msg.mode none)], []) := by
                rw [doTask, if_pos hstop]
                rfl
              have hm2 : (t, AEvent.handlerCall res) ∈
                  (runSched (asyncWriteMsgOp msg.mode) net2 f
                    ⟨ts ++ (doTask (asyncWriteMsgOp msg.mode) net2 s.turn
                        (Task.step k0 sr0)).1,
                      s.trace ++ (doTask (asyncWriteMsgOp msg.mode) net2 s.turn
                        (Task.step k0 sr0)).2, s.turn + 1⟩).trace := hm
              rw [hdo] at hm2
              refine ih _ ?_ ?_ t res hm2
              · intro tk htk
                rcases List.mem_append.mp htk with h | h
                · exact hqtail tk h
                · simp only [List.mem_singleton] at h
                  subst h
                  constructor
                  · intro res' hr'
                    injection hr' with hr''
                    rw [← hr'']
                    exact hres
                  · intro k sr hcontra
                    exact absurd hcontra (by simp)
              · intro t' res' hm'
                simp only [List.append_nil] at hm'
                exact htr t' res' hm'
            · have hsf : (asyncWriteMsgOp msg.mode).stop sr0 = false := by
                cases hio : (asyncWriteMsgOp msg.mode).stop sr0
                · rfl
                · exact absurd hio hstop
              have hnd0 : sr0.is_done = false := hsf
              obtain ⟨c, hc, hc1⟩ := hnet2 k0
              obtain ⟨hec, hcalls, hWF1, hnf1, _, _⟩ :=
                write_some_step sr0 c hWF0 hnd0 hnf0 hc1
              have hdo : doTask (asyncWriteMsgOp msg.mode) net2 s.turn
                  (Task.step k0 sr0) =
                  ([Task.step (k0 + 1) (write_some (some c) sr0).sr],
                    [(s.turn, AEvent.transportCall k0)]) := by
                rw [doTask, if_neg (by rw [hsf]; simp)]
                simp only [hc, hec, hcalls, asyncWriteMsgOp]
                simp
              have hm2 : (t, AEvent.handlerCall res) ∈
                  (runSched (asyncWriteMsgOp msg.mode) net2 f
                    ⟨ts ++ (doTask (asyncWriteMsgOp msg.mode) net2 s.turn
                        (Task.step k0 sr0)).1,
                      s.trace ++ (doTask (asyncWriteMsgOp msg.mode) net2 s.turn
                        (Task.step k0 sr0)).2, s.turn + 1⟩).trace := hm
              rw [hdo] at hm2
              refine ih _ ?_ ?_ t res hm2
              · intro tk htk
                rcases List.mem_append.mp htk with h | h
                · exact hqtail tk h
                · simp only [List.mem_singleton] at h
                  subst h
                  constructor
                  · intro res' hr'
                    exact absurd hr' (by simp)
                  · intro k sr heq
                    have h2 : sr = (write_some (some c) sr0).sr := by
                      injection heq with ha hb
                      exact hb.symm
                    rw [h2]
                    exact ⟨hWF1, hnf1⟩
              · intro t' res' hm'
                rcases List.mem_append.mp hm' with h | h
                · exact htr t' res' h
                · simp at h
    intro t res hmem
    refine key fuel2 (initiate (asyncWriteMsgOp msg.mode)
      (Serializer.init msg false noDecorator)) ?_ ?_ t res hmem
    · intro tk htk
      simp only [initiate, List.mem_singleton] at htk
      subst htk
      constructor
      · intro res' hr'
        exact absurd hr' (by simp)
      · intro k sr heq
        have h2 : sr = Serializer.init msg false noDecorator := by
          injection heq with ha hb
          exact hb.symm
        rw [h2]
        exact ⟨WF_init msg false noDecorator, by rw [init_phase]; simp⟩
    · intro t' res' hm'
      simp [initiate] at hm'

/-- Witness for C4: on a concrete completed serializer, initiation
produces no handler event and the run's sole handler invocation is at
turn 2, hence not inside the initiating call. -/
theorem async_handler_never_inline_witness :
    (∀ t res, (t, AEvent.handlerCall res) ∉
        (initiate asyncWriteSomeOp
          { Serializer.init ⟨[], FramingMode.contentLength, []⟩ false
              noDecorator with phase := Phase.complete }).trace) ∧
      (1 : Nat) ≤ 2 :=
  ⟨(async_handler_never_inline asyncWriteSomeOp
      { Serializer.init ⟨[], FramingMode.contentLength, []⟩ false
          noDecorator with phase := Phase.complete }
      (fun _ => some 1) 2).1,
    (async_handler_never_inline asyncWriteSomeOp
      { Serializer.init ⟨[], FramingMode.contentLength, []⟩ false
          noDecorator with phase := Phase.complete }
      (fun _ => some 1) 2).2 2 none (by decide)⟩

/-- Witness for C10 on a concrete completed serializer. -/
theorem async_write_some_done_posts_handler_witness :
    (initiate asyncWriteSomeOp
        { Serializer.init ⟨[], FramingMode.contentLength, []⟩ false
            noDecorator with phase := Phase.complete }).trace = [] ∧
      (runSched asyncWriteSomeOp (fun _ => some 1) 2
          (initiate asyncWriteSomeOp
            { Serializer.init ⟨[], FramingMode.contentLength, []⟩ false
                noDecorator with phase := Phase.complete })).trace =
        [(2, AEvent.handlerCall none)] ∧
      ∀ t k, (t, AEvent.transportCall k) ∉
        (runSched asyncWriteSomeOp (fun _ => some 1) 2
          (initiate asyncWriteSomeOp
            { Serializer.init ⟨[], FramingMode.contentLength, []⟩ false
                noDecorator with phase := Phase.complete })).trace :=
  async_write_some_done_posts_handler
    { Serializer.init ⟨[], FramingMode.contentLength, []⟩ false
        noDecorator with phase := Phase.complete }
    (fun _ => some 1) 2 rfl (le_refl 2)

/-- Witness for C3: a close-delimited message yields `end_of_stream`
on successful transmission while a content-length message does not. -/
theorem write_msg_endOfStream_witness :
    (write_msg_ec (fun _ => some 5) 30
        ⟨[72], FramingMode.closeDelimited, [[9]]⟩).2 =
      some Err.endOfStream ∧
      (write_msg_ec (fun _ => some 5) 30
          ⟨[72, 13, 10, 13, 10], FramingMode.contentLength, [[1]]⟩).2 ≠
        some Err.endOfStream := by
  constructor
  · exact (write_msg_endOfStream ⟨[72], FramingMode.closeDelimited, [[9]]⟩
      (fun _ => some 5) (fun _ => some 5) 30 0
      (fun _ => ⟨5, rfl, by omega⟩) (by decide)
      (fun _ => ⟨5, rfl, by omega⟩)).1.mpr rfl
  · intro hcon
    have hmode := (write_msg_endOfStream
      ⟨[72, 13, 10, 13, 10], FramingMode.contentLength, [[1]]⟩
      (fun _ => some 5) (fun _ => some 5) 30 0
      (fun _ => ⟨5, rfl, by omega⟩) (by decide)
      (fun _ => ⟨5, rfl, by omega⟩)).1.mp hcon
    simp at hmode

end BeastHttp
